import Mathlib

/-!
# Verification of `pydantic-fixedwidth`

A shallow embedding of `src/pydantic_fixedwidth/fixedwidth.py`: a codec that
encodes structured records into fixed-width byte buffers and decodes such
buffers back.  Bytes are modelled as `List Nat` (each element < 256), Python
strings as Lean `String`, Python callables stored in `Options` as Lean
functions, raised exceptions as `Except` errors.
-/

namespace PyFW

/-- A byte string (`bytes` in Python); each element is a byte value. -/
abbrev Bytes := List Nat

/-- Whitespace characters removed by Python's `str.strip()` (the ASCII subset,
which is all that the repository's data exercises). -/
def isPyWhitespace (c : Char) : Bool :=
  c = ' ' || c = '\t' || c = '\n' || c = '\x0d' || c = '\x0b' || c = '\x0c'

/-- Python `str.strip()`: remove leading and trailing whitespace. -/
def pyStrip (s : String) : String :=
  ⟨((s.data.dropWhile isPyWhitespace).reverse.dropWhile isPyWhitespace).reverse⟩

/-- UTF-8 encoding of one Unicode code point (Python `str.encode("utf-8")`,
one character). -/
def utf8Char (c : Nat) : Bytes :=
  if c < 0x80 then [c]
  else if c < 0x800 then
    [0xC0 + c / 0x40, 0x80 + c % 0x40]
  else if c < 0x10000 then
    [0xE0 + c / 0x1000, 0x80 + c / 0x40 % 0x40, 0x80 + c % 0x40]
  else
    [0xF0 + c / 0x40000, 0x80 + c / 0x1000 % 0x40, 0x80 + c / 0x40 % 0x40, 0x80 + c % 0x40]

/-- UTF-8 encoding of a string (Python `str.encode(s, "utf-8")`). -/
def utf8Encode (s : String) : Bytes :=
  s.data.flatMap fun c => utf8Char c.toNat

/-- Is `b` a UTF-8 continuation byte (`0b10xxxxxx`)? -/
def isCont (b : Nat) : Bool := 0x80 ≤ b && b < 0xC0

/-- One step of strict UTF-8 decoding: the first code point and the rest of
the input, or `none` for an invalid prefix (Python raises `UnicodeDecodeError`).
Overlong encodings and surrogate code points are rejected, as CPython does. -/
def utf8DecodeStep : Bytes → Option (Nat × Bytes)
  | [] => none
  | b :: rest =>
    if b < 0x80 then some (b, rest)
    else if b < 0xC2 then none
    else if b < 0xE0 then
      match rest with
      | b1 :: rest1 =>
        if isCont b1 then some ((b - 0xC0) * 0x40 + (b1 - 0x80), rest1) else none
      | _ => none
    else if b < 0xF0 then
      match rest with
      | b1 :: b2 :: rest2 =>
        if isCont b1 && isCont b2 then
          let c := (b - 0xE0) * 0x1000 + (b1 - 0x80) * 0x40 + (b2 - 0x80)
          if c < 0x800 || (0xD800 ≤ c && c < 0xE000) then none else some (c, rest2)
        else none
      | _ => none
    else if b < 0xF5 then
      match rest with
      | b1 :: b2 :: b3 :: rest3 =>
        if isCont b1 && isCont b2 && isCont b3 then
          let c := (b - 0xF0) * 0x40000 + (b1 - 0x80) * 0x1000 + (b2 - 0x80) * 0x40 + (b3 - 0x80)
          if c < 0x10000 || 0x110000 ≤ c then none else some (c, rest3)
        else none
      | _ => none
    else none

/-- Strict UTF-8 decoding of a byte string to a list of code points
(Python `bytes.decode(b, "utf-8")`); `none` on invalid input. -/
def utf8DecodeAux : Bytes → Nat → Option (List Nat)
  | [], _ => some []
  | b :: rest, fuel =>
    match fuel with
    | 0 => none
    | fuel + 1 =>
      match utf8DecodeStep (b :: rest) with
      | none => none
      | some (c, rest') => (utf8DecodeAux rest' fuel).map (c :: ·)

/-- Strict UTF-8 decode to a `String`; `none` on invalid input or on decoded
code points that are not valid `Char`s. -/
def utf8Decode (bs : Bytes) : Option String :=
  match utf8DecodeAux bs bs.length with
  | none => none
  | some cps =>
    if h : ∀ c ∈ cps, c < 0xD800 ∨ (0xE000 ≤ c ∧ c < 0x110000) then
      some ⟨cps.attach.map fun ⟨c, hc⟩ => Char.ofNatAux c (by
        rcases h c hc with h' | h'
        · exact Or.inl (Nat.lt_of_lt_of_le h' (by norm_num))
        · exact Or.inr ⟨by omega, by omega⟩)⟩
    else none

/-- A UTC timestamp as held by the repository's `datetime` values (the test
suite always attaches `timezone.utc`, so the zone is implicit). -/
structure PyDateTime where
  year : Nat
  month : Nat
  day : Nat
  hour : Nat
  minute : Nat
  second : Nat
  microsecond : Nat
deriving DecidableEq, Repr

/-- The universe of Python field values occurring in the repository:
strings, integers, byte strings, datetimes and `None`. -/
inductive PyVal where
  | vstr (s : String)
  | vint (n : Int)
  | vbytes (b : Bytes)
  | vdt (d : PyDateTime)
  | vnone
deriving DecidableEq, Repr

/-- Python `str()` on the values of `PyVal` (the default `to_str`); the
repository only ever applies it to strings and integers, the remaining
branches are unexercised placeholders for Python's `repr`-style output. -/
def pyStr : PyVal → String
  | .vstr s => s
  | .vint n => toString n
  | .vbytes b => toString (repr b)
  | .vdt d => toString (repr d)
  | .vnone => "None"

/-- `justify: Literal["left", "right"]`. -/
inductive Justify where
  | left
  | right
deriving DecidableEq, Repr

mutual

/-- A value stored in a `json_schema_extra` dict: the `Options.model_dump()`
entries are ints, strings, bytes, the four converter callables, the
`FieldInfo` back-reference, plus `bool`/`None` for `pydantic.Field` kwargs. -/
inductive DVal where
  | dint (n : Int)
  | dstr (s : String)
  | dbytes (b : Bytes)
  | dbool (b : Bool)
  | dfromStr (f : String → Except String PyVal)
  | dtoStr (f : PyVal → String)
  | dfromBytes (f : Bytes → String → Except String String)
  | dtoBytes (f : String → String → Bytes)
  | dfield (fi : FieldInfo)
  | dnone

/-- `FieldInfo.json_schema_extra`: `None`, a callable, or a dict. -/
inductive JSExtra where
  | jnone
  | jcallable
  | jdict (entries : List (String × DVal))

/-- The slice of `pydantic.fields.FieldInfo` the repository reads and writes:
`default`, `exclude` and `json_schema_extra`.  Python's aliasing of the
`FieldInfo` object is unobservable to the verified claims, so the embedding
uses plain values. -/
inductive FieldInfo where
  | mk (dflt : Option DVal) (exclude : Bool) (json_schema_extra : JSExtra)

end

/-- The `exclude` attribute of a `FieldInfo`. -/
def FieldInfo.exclude : FieldInfo → Bool
  | .mk _ e _ => e

/-- The `json_schema_extra` attribute of a `FieldInfo`. -/
def FieldInfo.json_schema_extra : FieldInfo → JSExtra
  | .mk _ _ j => j

/-- The `default` attribute of a `FieldInfo`. -/
def FieldInfo.dflt : FieldInfo → Option DVal
  | .mk d _ _ => d

/-- `dict.__getitem__`-style lookup in an association-list dict (first match
wins; update operations below put fresh entries in front so that lookup
observes Python's later-keys-overwrite semantics). -/
def dictGet (key : String) : List (String × DVal) → Option DVal
  | [] => none
  | (k, v) :: rest => if k = key then some v else dictGet key rest

/-- Python `dict.update(new)`: afterwards a lookup finds `new`'s value for
`new`'s keys and the old value otherwise.  The embedding realises this
observationally by putting the new entries in front. -/
def dictUpdate (old new : List (String × DVal)) : List (String × DVal) :=
  new ++ old

/-- The default `from_str` callable: `lambda x: x.strip()`. -/
def defaultFromStr (s : String) : Except String PyVal :=
  .ok (.vstr (pyStrip s))

/-- The default `to_bytes` callable `str.encode`, modelled for the `"utf-8"`
codec — the only codec the repository ever selects. -/
def defaultToBytes (s : String) (_encoding : String) : Bytes :=
  utf8Encode s

/-- The default `from_bytes` callable `bytes.decode`, modelled for the
`"utf-8"` codec — the only codec the repository ever selects; a
`UnicodeDecodeError` becomes an `Except.error`. -/
def defaultFromBytes (b : Bytes) (_encoding : String) : Except String String :=
  match utf8Decode b with
  | some s => .ok s
  | none => .error "UnicodeDecodeError"

/-- `class Options(BaseModel)`: options for a fixed-width field. -/
structure Options where
  field_info : FieldInfo
  length : Nat
  order : Int
  justify : Justify := .left
  fill_byte : Bytes := [32]
  encoding : String := "utf-8"
  from_str : String → Except String PyVal := defaultFromStr
  to_str : PyVal → String := pyStr
  from_bytes : Bytes → String → Except String String := defaultFromBytes
  to_bytes : String → String → Bytes := defaultToBytes

/-- `Options.model_fields` (the declared field names, in declaration order). -/
def optionsFieldNames : List String :=
  ["field_info", "length", "order", "justify", "fill_byte", "encoding",
   "from_str", "to_str", "from_bytes", "to_bytes"]

/-- `Options.model_dump()` in python mode: every field, as held. -/
def Options.model_dump (o : Options) : List (String × DVal) :=
  [("field_info", .dfield o.field_info),
   ("length", .dint o.length),
   ("order", .dint o.order),
   ("justify", .dstr (match o.justify with | .left => "left" | .right => "right")),
   ("fill_byte", .dbytes o.fill_byte),
   ("encoding", .dstr o.encoding),
   ("from_str", .dfromStr o.from_str),
   ("to_str", .dtoStr o.to_str),
   ("from_bytes", .dfromBytes o.from_bytes),
   ("to_bytes", .dtoBytes o.to_bytes)]

/-- Validation of the `field_info` key of an `Options` config dict:
required, must hold a `FieldInfo`. -/
def vFieldInfo (config : List (String × DVal)) : Except String FieldInfo :=
  match dictGet "field_info" config with
  | some (.dfield fi) => .ok fi
  | _ => .error "validation error: field_info"

/-- The nine non-`field_info` fields of a validated `Options` config. -/
structure OptionsData where
  length : Nat
  order : Int
  justify : Justify
  fill_byte : Bytes
  encoding : String
  from_str : String → Except String PyVal
  to_str : PyVal → String
  from_bytes : Bytes → String → Except String String
  to_bytes : String → String → Bytes

/-- Validation of `length`: a required int, non-negative as every declared
length is. -/
def vLength (config : List (String × DVal)) : Except String Nat :=
  match dictGet "length" config with
  | some (.dint n) => if n < 0 then .error "validation error: length" else .ok n.toNat
  | _ => .error "validation error: length"

/-- Validation of `order`: a required int. -/
def vOrder (config : List (String × DVal)) : Except String Int :=
  match dictGet "order" config with
  | some (.dint n) => .ok n
  | _ => .error "validation error: order"

/-- Validation of `justify`: the literal `"left"` or `"right"`, defaulting
to left. -/
def vJustify (config : List (String × DVal)) : Except String Justify :=
  match dictGet "justify" config with
  | some (.dstr "left") => .ok Justify.left
  | some (.dstr "right") => .ok Justify.right
  | none => .ok Justify.left
  | _ => .error "validation error: justify"

/-- Validation of `fill_byte`: a `bytes` of exactly one byte (its
`min_length=1, max_length=1` constraints), defaulting to `b" "`. -/
def vFillByte (config : List (String × DVal)) : Except String Bytes :=
  match dictGet "fill_byte" config with
  | some (.dbytes b) =>
    if b.length = 1 then .ok b else .error "validation error: fill_byte"
  | none => .ok [32]
  | _ => .error "validation error: fill_byte"

/-- Validation of `encoding`: a string, defaulting to `"utf-8"`. -/
def vEncoding (config : List (String × DVal)) : Except String String :=
  match dictGet "encoding" config with
  | some (.dstr s) => .ok s
  | none => .ok "utf-8"
  | _ => .error "validation error: encoding"

/-- Validation of `from_str`: a callable of the declared shape, defaulting
to the strip lambda. -/
def vFromStr (config : List (String × DVal)) : Except String (String → Except String PyVal) :=
  match dictGet "from_str" config with
  | some (.dfromStr f) => .ok f
  | none => .ok defaultFromStr
  | _ => .error "validation error: from_str"

/-- Validation of `to_str`: a callable, defaulting to `str`. -/
def vToStr (config : List (String × DVal)) : Except String (PyVal → String) :=
  match dictGet "to_str" config with
  | some (.dtoStr f) => .ok f
  | none => .ok pyStr
  | _ => .error "validation error: to_str"

/-- Validation of `from_bytes`: a callable, defaulting to `bytes.decode`. -/
def vFromBytes (config : List (String × DVal)) :
    Except String (Bytes → String → Except String String) :=
  match dictGet "from_bytes" config with
  | some (.dfromBytes f) => .ok f
  | none => .ok defaultFromBytes
  | _ => .error "validation error: from_bytes"

/-- Validation of `to_bytes`: a callable, defaulting to `str.encode`. -/
def vToBytes (config : List (String × DVal)) :
    Except String (String → String → Bytes) :=
  match dictGet "to_bytes" config with
  | some (.dtoBytes f) => .ok f
  | none => .ok defaultToBytes
  | _ => .error "validation error: to_bytes"

/-- Validation of the non-`field_info` keys of an `Options` config dict, in
declaration order.  Extra keys are ignored, as pydantic does by default. -/
def vData (config : List (String × DVal)) : Except String OptionsData := do
  let length ← vLength config
  let order ← vOrder config
  let justify ← vJustify config
  let fill_byte ← vFillByte config
  let encoding ← vEncoding config
  let from_str ← vFromStr config
  let to_str ← vToStr config
  let from_bytes ← vFromBytes config
  let to_bytes ← vToBytes config
  .ok { length, order, justify, fill_byte, encoding,
        from_str, to_str, from_bytes, to_bytes }

/-- `Options.model_validate(config)`: build an `Options` from a dict —
pydantic validates the fields in declaration order, `field_info` first. -/
def Options.model_validate (config : List (String × DVal)) : Except String Options := do
  let field_info ← vFieldInfo config
  let d ← vData config
  .ok { field_info, length := d.length, order := d.order, justify := d.justify,
        fill_byte := d.fill_byte, encoding := d.encoding, from_str := d.from_str,
        to_str := d.to_str, from_bytes := d.from_bytes, to_bytes := d.to_bytes }

/-- `Options.save_to(field_info)`: raise `TypeError` unless
`field_info.json_schema_extra` is a dict, else update that dict with
`self.model_dump()`.  Python mutates the `FieldInfo` in place; the embedding
returns the updated value. -/
def Options.save_to (o : Options) (fi : FieldInfo) : Except String FieldInfo :=
  match fi.json_schema_extra with
  | .jdict entries =>
    .ok (.mk fi.dflt fi.exclude (.jdict (dictUpdate entries o.model_dump)))
  | _ => .error "`field_info.json_schema_extra` must be a `dict`"

/-- `Options.load_from(field_info)`: raise `TypeError` unless
`field_info.json_schema_extra` is a dict, else `model_validate` it. -/
def Options.load_from (fi : FieldInfo) : Except String Options :=
  match fi.json_schema_extra with
  | .jdict entries => Options.model_validate entries
  | _ => .error "`field_info.json_schema_extra` must be a `dict`"

/-- The keyword arguments `pydantic.Field` itself recognises among those the
repository passes: `default` and `exclude`.  Every other keyword argument is
collected into `json_schema_extra` (pydantic v2's extra-kwargs behaviour). -/
def knownFieldKwargs : List String :=
  ["default", "exclude"]

/-- `pydantic.Field(**kwargs)`: build a `FieldInfo`; unrecognised keyword
arguments land in `json_schema_extra` as a dict (or it stays `None` when
there are none). -/
def Field (kwargs : List (String × DVal)) : FieldInfo :=
  let dflt := dictGet "default" kwargs
  let exclude := match dictGet "exclude" kwargs with
    | some (.dbool b) => b
    | _ => false
  let extra := kwargs.filter fun kv => !knownFieldKwargs.contains kv.1
  .mk dflt exclude (if extra.isEmpty then .jnone else .jdict extra)

/-- The `config` dict of `OrderedField`'s body:
`{"field_info": field, "order": __counter, **filtered-kwargs}` where the
filtered kwargs are those naming `Options` fields.  Dict-literal semantics:
the kwargs overwrite the first two keys, so they come first in the
lookup-first list. -/
def orderedFieldConfig (kwargs : List (String × DVal)) (field : FieldInfo)
    (counter : Nat) : List (String × DVal) :=
  kwargs.filter (fun kv => optionsFieldNames.contains kv.1) ++
    [("field_info", .dfield field), ("order", .dint counter)]

/-- The `options = Options.model_validate(config)` step of `OrderedField`:
the fixed-width options built for a (non-excluded) field declared with
`kwargs` while the module counter reads `counter`. -/
def builtOptions (kwargs : List (String × DVal)) (counter : Nat) :
    Except String Options :=
  Options.model_validate (orderedFieldConfig kwargs (Field kwargs) counter)

/-- `OrderedField(**kwargs)` with the module-level `__counter` threaded
explicitly: build the `FieldInfo`, and unless it is excluded, validate an
`Options` from the config dict, save it onto the field and increment the
counter. -/
def OrderedField (kwargs : List (String × DVal)) (counter : Nat) :
    Except String (FieldInfo × Nat) :=
  let field := Field kwargs
  if field.exclude then .ok (field, counter)
  else do
    let options ← builtOptions kwargs counter
    let field' ← options.save_to field
    .ok (field', counter + 1)

/-- `Padding = partial(OrderedField, default="")`. -/
def Padding (kwargs : List (String × DVal)) (counter : Nat) :
    Except String (FieldInfo × Nat) :=
  OrderedField (("default", .dstr "") :: kwargs) counter

/-- A record class body: the declared field names with the keyword arguments
of their `OrderedField(...)` declarations, in declaration sequence. -/
abbrev FieldDecls := List (String × List (String × DVal))

/-- Run the `OrderedField` declarations of a class body in declaration
sequence, threading the module counter; yields `cls.model_fields`. -/
def declareFields (decls : FieldDecls) (counter : Nat) :
    Except String (List (String × FieldInfo) × Nat) :=
  match decls with
  | [] => .ok ([], counter)
  | (name, kwargs) :: rest => do
    let (fi, counter') ← OrderedField kwargs counter
    let (fis, counter'') ← declareFields rest counter'
    .ok ((name, fi) :: fis, counter'')

/-- Stable insertion of one entry into a list sorted by `Options.order`:
strictly smaller keys go in front, equal keys keep their relative position —
the stability guarantee of Python's `sorted`. -/
def sortInsert (x : String × Options) : List (String × Options) → List (String × Options)
  | [] => [x]
  | y :: ys => if x.2.order < y.2.order then x :: y :: ys else y :: sortInsert x ys

/-- `sorted(field_options, key=lambda x: x[1].order)`: a stable sort by the
`order` option. -/
def sortByOrder : List (String × Options) → List (String × Options)
  | [] => []
  | x :: xs => sortInsert x (sortByOrder xs)

/-- The schema pydantic stores in `cls._field_options`: field names with
their `Options`, excluded fields dropped, sorted by `order`. -/
abbrev Schema := List (String × Options)

/-- `Fixedwidth.__pydantic_init_subclass__`: load the `Options` of every
non-excluded declared field and sort them ascending by `order`, producing
`cls._field_options`. -/
def init_subclass (model_fields : List (String × FieldInfo)) : Except String Schema := do
  let included := model_fields.filter fun kv => !kv.2.exclude
  let loaded ← included.mapM fun kv => do
    let o ← Options.load_from kv.2
    pure (kv.1, o)
  .ok (sortByOrder loaded)

/-- Declare a whole `Fixedwidth` subclass from a fresh (or given) counter
state: run the field declarations, then build `_field_options`. -/
def buildClass (decls : FieldDecls) (counter : Nat) : Except String Schema := do
  let (model_fields, _) ← declareFields decls counter
  init_subclass model_fields

/-- The structured content of the `ValueError` raised by `format_bytes`: its
message interpolates exactly the field name, the encoded bytes of the value,
their length, and the declared field length. -/
structure OverflowError where
  field_name : String
  value_bytes : Bytes
  actual_length : Nat
  declared_length : Nat
deriving Repr, DecidableEq

/-- The single fill byte of a field; `fill_byte` is validated to exactly one
byte, so the fallback is never reached on validated options. -/
def fillByteOf (o : Options) : Nat :=
  o.fill_byte.headD 32

/-- Python `bytes.ljust(n, fill)`: pad on the right out to `n` bytes (no-op
when already at least `n` bytes long). -/
def pyLjust (b : Bytes) (n : Nat) (fill : Nat) : Bytes :=
  b ++ List.replicate (n - b.length) fill

/-- Python `bytes.rjust(n, fill)`: pad on the left out to `n` bytes. -/
def pyRjust (b : Bytes) (n : Nat) (fill : Nat) : Bytes :=
  List.replicate (n - b.length) fill ++ b

/-- The padding step of the `format_bytes` loop:
`b.ljust(length, fill_byte) if justify == "left" else b.rjust(length, fill_byte)`. -/
def padField (o : Options) (b : Bytes) : Bytes :=
  if o.justify = .left then pyLjust b o.length (fillByteOf o)
  else pyRjust b o.length (fillByteOf o)

/-- The body of the `format_bytes` loop for one field: `to_str`, `to_bytes`,
the overflow check, then justify-directed padding. -/
def encodeField (name : String) (o : Options) (value : PyVal) :
    Except OverflowError Bytes :=
  let s := o.to_str value
  let b := o.to_bytes s o.encoding
  if b.length > o.length then
    .error ⟨name, b, b.length, o.length⟩
  else
    .ok (padField o b)

/-- `Fixedwidth.format_bytes` over a schema and the instance's attribute map
(`getattr(self, field_name)`): walk the fields in schema order, skipping
excluded ones, encode each and concatenate; the first overflow aborts the
whole encode with no bytes returned. -/
def format_bytes (schema : Schema) (get : String → PyVal) : Except OverflowError Bytes :=
  match schema with
  | [] => .ok []
  | (name, o) :: rest =>
    if o.field_info.exclude then format_bytes rest get
    else do
      let b ← encodeField name o (get name)
      let bs ← format_bytes rest get
      .ok (b ++ bs)

/-- The body of the `parse_bytes` loop for one field: `from_bytes` then
`from_str` on a raw slice; failures of either callable propagate. -/
def decodeField (o : Options) (b : Bytes) : Except String PyVal := do
  let s ← o.from_bytes b o.encoding
  o.from_str s

/-- The loop of `Fixedwidth.parse_bytes` from a given running offset: each
non-excluded field takes the slice `raw[index : index + length]` (Python
slicing truncates silently), decodes it, and advances the offset by the
declared length.  Yields the `values` dict handed to `cls(...)`. -/
def parseLoop (schema : Schema) (raw : Bytes) (index : Nat) :
    Except String (List (String × PyVal)) :=
  match schema with
  | [] => .ok []
  | (name, o) :: rest =>
    if o.field_info.exclude then parseLoop rest raw index
    else do
      let b := (raw.drop index).take o.length
      let v ← decodeField o b
      let vs ← parseLoop rest raw (index + o.length)
      .ok ((name, v) :: vs)

/-- `Fixedwidth.parse_bytes` up to the final `cls(**values, **extras)` call:
produce the field-name-to-value dict from the raw buffer.  The external
pydantic constructor is applied separately where a claim needs it. -/
def parse_values (schema : Schema) (raw : Bytes) : Except String (List (String × PyVal)) :=
  parseLoop schema raw 0

instance {ε α : Type} [DecidableEq ε] [DecidableEq α] : DecidableEq (Except ε α) :=
  fun x y =>
    match x, y with
    | .error a, .error b =>
      match decEq a b with
      | isTrue h => isTrue (by rw [h])
      | isFalse h => isFalse (by intro hh; cases hh; exact h rfl)
    | .ok a, .ok b =>
      match decEq a b with
      | isTrue h => isTrue (by rw [h])
      | isFalse h => isFalse (by intro hh; cases hh; exact h rfl)
    | .error _, .ok _ => isFalse (by intro hh; cases hh)
    | .ok _, .error _ => isFalse (by intro hh; cases hh)

/-- The fields of a schema that take part in the wire format (`format_bytes`
and `parse_bytes` skip entries whose `field_info.exclude` is set). -/
def includedFields (schema : Schema) : Schema :=
  schema.filter fun p => !p.2.field_info.exclude

/-- Total wire length of a schema: the sum of the declared lengths of its
included fields. -/
def totalLength (schema : Schema) : Nat :=
  ((includedFields schema).map fun p => p.2.length).sum

/-- Byte offset of the `i`-th included field: the sum of the declared
lengths of the included fields before it. -/
def offsetOf (schema : Schema) (i : Nat) : Nat :=
  (((includedFields schema).take i).map fun p => p.2.length).sum

/-- The slice `bs[off : off + len]` of a byte buffer (truncating, as Python
slicing does). -/
def byteRange (bs : Bytes) (off len : Nat) : Bytes :=
  (bs.drop off).take len

/-- Is a `json_schema_extra` value a dict? -/
def JSExtra.isDict : JSExtra → Bool
  | .jdict _ => true
  | _ => false

/-- The layout data of an `Options` — everything except the `field_info`
back-reference and the converter callables. -/
def Options.layout (o : Options) : Nat × Int × Justify × Bytes × String :=
  (o.length, o.order, o.justify, o.fill_byte, o.encoding)

/-! ## The test suite's concrete record type (`src/tests/test_fixedwidth.py`) -/

/-- UTF-8 bytes of a string literal, for stating expected buffers. -/
def strBytes (s : String) : Bytes := utf8Encode s

/-- Decimal digits of `n` zero-padded on the left to width `w` (CPython's
zero-padded `strftime` directives). -/
def padNum (w : Nat) (n : Nat) : String :=
  let s := toString n
  ⟨List.replicate (w - s.length) '0'⟩ ++ s

/-- `dt.strftime("%Y%m%d%H%M%S%f")`. -/
def dtStrftime (d : PyDateTime) : String :=
  padNum 4 d.year ++ padNum 2 d.month ++ padNum 2 d.day ++ padNum 2 d.hour ++
    padNum 2 d.minute ++ padNum 2 d.second ++ padNum 6 d.microsecond

/-- The test's `to_str` lambda for `ts`; only ever applied to datetimes. -/
def tsToStr : PyVal → String
  | .vdt d => dtStrftime d
  | _ => ""

/-- The numeric value of a digit list, or `none` if empty or non-digit. -/
def digitsToNat : List Char → Option Nat
  | [] => none
  | cs =>
    if cs.all (·.isDigit) then
      some (cs.foldl (fun acc c => acc * 10 + (c.toNat - 48)) 0)
    else none

/-- The digits of `s` between positions `a` and `b` as a number. -/
def strSliceNat (s : String) (a b : Nat) : Option Nat :=
  digitsToNat ((s.data.drop a).take (b - a))

/-- `datetime.strptime(s, "%Y%m%d%H%M%S%f")` on the zero-padded 20-digit
strings this record produces (the only inputs the tests parse): fixed-width
positional fields with `strptime`'s range checks. -/
def dtStrptime (s : String) : Except String PyDateTime := do
  if s.length ≠ 20 then .error "ValueError: time data does not match format"
  else
    match strSliceNat s 0 4, strSliceNat s 4 6, strSliceNat s 6 8,
        strSliceNat s 8 10, strSliceNat s 10 12, strSliceNat s 12 14,
        strSliceNat s 14 20 with
    | some y, some mo, some d, some h, some mi, some sec, some f =>
      if 1 ≤ mo && mo ≤ 12 && 1 ≤ d && d ≤ 31 && h ≤ 23 && mi ≤ 59 && sec ≤ 61 then
        .ok ⟨y, mo, d, h, mi, sec, f⟩
      else .error "ValueError: time data does not match format"
    | _, _, _, _, _, _, _ => .error "ValueError: time data does not match format"

/-- The test's `from_str` lambda for `ts` (the `.replace(tzinfo=utc)` is a
no-op in the zone-implicit model). -/
def tsFromStr (s : String) : Except String PyVal :=
  (dtStrptime s).map .vdt

/-- The field declarations of `class SomeRequest(Fixedwidth)`, in source
order, with the exact keyword arguments of the test file — including the
misspelt `fill_char` on `number`. -/
def someRequestDecls : FieldDecls :=
  [("string", [("length", .dint 8)]),
   ("hangul", [("length", .dint 6)]),
   ("number", [("length", .dint 10), ("justify", .dstr "right"),
               ("fill_char", .dbytes [48])]),
   ("p_", [("default", .dstr ""), ("length", .dint 10)]),
   ("ts", [("length", .dint 20), ("to_str", .dtoStr tsToStr),
           ("from_str", .dfromStr tsFromStr)])]

/-- The schema `SomeRequest._field_options` as built by the class machinery
from a fresh module counter. -/
def someRequestSchema : Except String Schema :=
  buildClass someRequestDecls 0

/-- The record instance type behind `SomeRequest` (the external pydantic
value-bag). -/
structure SomeRequest where
  string : String
  hangul : String
  number : Int
  p_ : String
  ts : PyDateTime
deriving DecidableEq, Repr

/-- `getattr(self, field_name)` for a `SomeRequest` instance. -/
def SomeRequest.get (r : SomeRequest) (name : String) : PyVal :=
  if name = "string" then .vstr r.string
  else if name = "hangul" then .vstr r.hangul
  else if name = "number" then .vint r.number
  else if name = "p_" then .vstr r.p_
  else if name = "ts" then .vdt r.ts
  else .vnone

/-- Lookup in the decoded `values` dict (field names of a class are unique,
so first-match lookup agrees with Python's dict). -/
def dictGetVal (key : String) : List (String × PyVal) → Option PyVal
  | [] => none
  | (k, v) :: rest => if k = key then some v else dictGetVal key rest

/-- Pydantic's lax `str -> int` coercion used when constructing a record
from decoded values: strip whitespace, then parse an optionally signed
decimal integer. -/
def pyIntCoerce (s : String) : Except String Int :=
  let t := pyStrip s
  match t.data with
  | '-' :: ds => match digitsToNat ds with
    | some n => .ok (-(n : Int))
    | none => .error "ValidationError: int"
  | '+' :: ds => match digitsToNat ds with
    | some n => .ok (n : Int)
    | none => .error "ValidationError: int"
  | ds => match digitsToNat ds with
    | some n => .ok (n : Int)
    | none => .error "ValidationError: int"

/-- `SomeRequest(**values)`: the external pydantic constructor for this
record type — `str` fields accept strings, the `int` field accepts ints or
lax-coerces decimal strings, `p_` falls back to its declared default `""`,
`ts` accepts datetimes; anything else is a validation error. -/
def mkSomeRequest (values : List (String × PyVal)) : Except String SomeRequest := do
  let string ← match dictGetVal "string" values with
    | some (.vstr s) => .ok s
    | _ => .error "ValidationError: string"
  let hangul ← match dictGetVal "hangul" values with
    | some (.vstr s) => .ok s
    | _ => .error "ValidationError: hangul"
  let number ← match dictGetVal "number" values with
    | some (.vint n) => .ok n
    | some (.vstr s) => pyIntCoerce s
    | _ => .error "ValidationError: number"
  let p_ ← match dictGetVal "p_" values with
    | some (.vstr s) => .ok s
    | none => .ok ""
    | _ => .error "ValidationError: p_"
  let ts ← match dictGetVal "ts" values with
    | some (.vdt d) => .ok d
    | _ => .error "ValidationError: ts"
  .ok ⟨string, hangul, number, p_, ts⟩

/-- `SomeRequest(...).format_bytes()` end to end: build the class schema and
format an instance (overflow errors reduced to the offending field name so
the pipeline lives in one error monad). -/
def someRequestFormat (r : SomeRequest) : Except String Bytes := do
  let sch ← someRequestSchema
  (format_bytes sch r.get).mapError fun e => e.field_name

/-- `SomeRequest.parse_bytes(raw)` end to end: build the class schema,
decode the values dict and run the pydantic constructor. -/
def someRequestParse (raw : Bytes) : Except String SomeRequest := do
  let sch ← someRequestSchema
  let vals ← parse_values sch raw
  mkSomeRequest vals

/-- The record instance constructed in both tests. -/
def someRequest0 : SomeRequest :=
  ⟨"<DFG&", "한글", 381, "", ⟨2024, 1, 23, 14, 11, 20, 124277⟩⟩

/-- The 54-byte buffer asserted by both tests:
`b"<DFG&   \xed\x95\x9c\xea\xb8\x80       381          20240123141120124277"`. -/
def testBytes : Bytes :=
  strBytes "<DFG&   " ++ strBytes "한글" ++ strBytes "       381" ++
    strBytes "          " ++ strBytes "20240123141120124277"

/-- The value of `SomeRequest._field_options`, written out: five fields in
declaration order with counter-assigned orders 0..4; `number`'s misspelt
`fill_char` kwarg is absent from its options (the fill byte is the default
space) though it remains in the raw `json_schema_extra` kwargs; each
`field_info` is the pre-save `FieldInfo` that `Options.model_validate`
captured. -/
def someSchemaVal : Schema :=
  [("string",
    { field_info := .mk none false (.jdict [("length", .dint 8)]),
      length := 8, order := 0 }),
   ("hangul",
    { field_info := .mk none false (.jdict [("length", .dint 6)]),
      length := 6, order := 1 }),
   ("number",
    { field_info := .mk none false (.jdict
        [("length", .dint 10), ("justify", .dstr "right"),
         ("fill_char", .dbytes [48])]),
      length := 10, order := 2, justify := .right }),
   ("p_",
    { field_info := .mk (some (.dstr "")) false (.jdict [("length", .dint 10)]),
      length := 10, order := 3 }),
   ("ts",
    { field_info := .mk none false (.jdict
        [("length", .dint 20), ("to_str", .dtoStr tsToStr),
         ("from_str", .dfromStr tsFromStr)]),
      length := 20, order := 4, from_str := tsFromStr, to_str := tsToStr })]

/-- A length-5 field with fill byte `'0'` and `justify="right"`, all other
options default. -/
def padRightOpts : Options :=
  { field_info := .mk none false .jnone, length := 5, order := 0,
    justify := .right, fill_byte := [48] }

/-- A length-5 field with fill byte `'0'` and `justify="left"`, all other
options default. -/
def padLeftOpts : Options :=
  { field_info := .mk none false .jnone, length := 5, order := 0,
    justify := .left, fill_byte := [48] }

/-- A one-field record class whose field is right-justified with fill byte
`'0'` — the declaration of the C1 counterexample. -/
def cexDecls : FieldDecls :=
  [("f", [("length", .dint 5), ("justify", .dstr "right"), ("fill_byte", .dbytes [48])])]

/-- The options the class machinery builds for `cexDecls`' single field. -/
def cexOpts : Options :=
  { field_info := .mk none false (.jdict
      [("length", .dint 5), ("justify", .dstr "right"), ("fill_byte", .dbytes [48])]),
    length := 5, order := 0, justify := .right, fill_byte := [48] }

/-- The schema built from `cexDecls`. -/
def cexSchema : Schema := [("f", cexOpts)]

/-- A one-field all-defaults schema (length 5, left justify, space fill). -/
def rtOpts : Options :=
  { field_info := .mk none false (.jdict [("length", .dint 5)]),
    length := 5, order := 0 }

/-- Schema of the round-trip witness. -/
def rtSchema : Schema := [("f", rtOpts)]

/-- Attribute map of the round-trip witness record: every field reads `"ab"`. -/
def rtGet : String → PyVal := fun _ => .vstr "ab"

/-- An excluded field's options (as would sit in a schema list). -/
def exOpt : Options :=
  { field_info := .mk none true .jnone, length := 3, order := 9 }

/-- A loadable `FieldInfo` whose extra dict holds `rtOpts`' dump. -/
def fiA : FieldInfo := .mk none false (.jdict rtOpts.model_dump)

/-- An excluded `FieldInfo` (as `OrderedField(exclude=True)` leaves it). -/
def exA : FieldInfo := .mk none true .jnone

/-- Declared model fields with one included and one excluded entry. -/
def mfC7 : List (String × FieldInfo) := [("f", fiA), ("x", exA)]

/-- A field declaration whose metadata-extension storage is `None`. -/
def fiNone : FieldInfo := .mk none false .jnone

/-- A field declaration whose metadata-extension storage is an empty dict. -/
def fiDict : FieldInfo := .mk none false (.jdict [])

/-- The 54-byte buffer the claim says the test record encodes to, with the
number field zero-filled (`"0000000381"`). -/
def claimedBytes : Bytes :=
  strBytes "<DFG&   " ++ strBytes "한글" ++ strBytes "0000000381" ++
    strBytes "          " ++ strBytes "20240123141120124277"

/-- The slices `raw[offset : offset + length]` of the included fields,
offsets accumulated from `i` — truncated (possibly empty) when the buffer
runs out, exactly as Python slicing behaves. -/
def slicesFrom (fields : Schema) (raw : Bytes) (i : Nat) : List Bytes :=
  match fields with
  | [] => []
  | (_, o) :: rest => byteRange raw i o.length :: slicesFrom rest raw (i + o.length)

/-- Decode a list of fields against a list of pre-cut slices, one slice per
field — the reference description of `parse_bytes`' slicing step. -/
def parseWithSlices : Schema → List Bytes → Except String (List (String × PyVal))
  | [], _ => .ok []
  | (name, o) :: rest, slices =>
    decodeField o (slices.headD []) >>= fun v =>
      parseWithSlices rest slices.tail >>= fun vs => .ok ((name, v) :: vs)

/-! ## Helper lemmas -/

@[simp]
theorem exceptOkBind {ε α β : Type} (a : α) (f : α → Except ε β) :
    (Except.ok a : Except ε α) >>= f = f a := rfl

@[simp]
theorem exceptErrorBind {ε α β : Type} (e : ε) (f : α → Except ε β) :
    (Except.error e : Except ε α) >>= f = .error e := rfl

theorem pyLjust_length (b : Bytes) (n : Nat) (fill : Nat) (h : b.length ≤ n) :
    (pyLjust b n fill).length = n := by
  simp [pyLjust]; omega

theorem pyRjust_length (b : Bytes) (n : Nat) (fill : Nat) (h : b.length ≤ n) :
    (pyRjust b n fill).length = n := by
  simp [pyRjust]; omega

theorem padField_length (o : Options) (b : Bytes) (h : b.length ≤ o.length) :
    (padField o b).length = o.length := by
  unfold padField
  split
  · exact pyLjust_length b o.length (fillByteOf o) h
  · exact pyRjust_length b o.length (fillByteOf o) h

theorem encodeField_ok (name : String) (o : Options) (v : PyVal)
    (h : (o.to_bytes (o.to_str v) o.encoding).length ≤ o.length) :
    encodeField name o v = .ok (padField o (o.to_bytes (o.to_str v) o.encoding)) := by
  unfold encodeField
  simp only []
  rw [if_neg (by omega)]

theorem encodeField_error (name : String) (o : Options) (v : PyVal)
    (h : (o.to_bytes (o.to_str v) o.encoding).length > o.length) :
    encodeField name o v =
      .error ⟨name, o.to_bytes (o.to_str v) o.encoding,
              (o.to_bytes (o.to_str v) o.encoding).length, o.length⟩ := by
  unfold encodeField
  simp only []
  rw [if_pos h]

theorem encodeField_ok_inv {name : String} {o : Options} {v : PyVal} {b : Bytes}
    (h : encodeField name o v = .ok b) :
    (o.to_bytes (o.to_str v) o.encoding).length ≤ o.length ∧
      b = padField o (o.to_bytes (o.to_str v) o.encoding) := by
  unfold encodeField at h
  simp only [] at h
  split at h
  · cases h
  · cases h; exact ⟨by omega, rfl⟩

theorem encodeField_error_inv {name : String} {o : Options} {v : PyVal} {e : OverflowError}
    (h : encodeField name o v = .error e) :
    (o.to_bytes (o.to_str v) o.encoding).length > o.length ∧
      e = ⟨name, o.to_bytes (o.to_str v) o.encoding,
           (o.to_bytes (o.to_str v) o.encoding).length, o.length⟩ := by
  unfold encodeField at h
  simp only [] at h
  split at h
  · cases h; simp_all
  · cases h

theorem includedFields_nil : includedFields [] = [] := rfl

theorem includedFields_cons_ex {o : Options} (name : String) (rest : Schema)
    (h : o.field_info.exclude = true) :
    includedFields ((name, o) :: rest) = includedFields rest := by
  simp [includedFields, h]

theorem includedFields_cons_inc {o : Options} (name : String) (rest : Schema)
    (h : o.field_info.exclude = false) :
    includedFields ((name, o) :: rest) = (name, o) :: includedFields rest := by
  simp [includedFields, h]

theorem totalLength_cons_ex {o : Options} (name : String) (rest : Schema)
    (h : o.field_info.exclude = true) :
    totalLength ((name, o) :: rest) = totalLength rest := by
  simp [totalLength, includedFields_cons_ex name rest h]

theorem totalLength_cons_inc {o : Options} (name : String) (rest : Schema)
    (h : o.field_info.exclude = false) :
    totalLength ((name, o) :: rest) = o.length + totalLength rest := by
  simp [totalLength, includedFields_cons_inc name rest h]

theorem format_bytes_nil (get : String → PyVal) : format_bytes [] get = .ok [] := rfl

theorem format_bytes_cons_ex {o : Options} (name : String) (rest : Schema)
    (get : String → PyVal) (h : o.field_info.exclude = true) :
    format_bytes ((name, o) :: rest) get = format_bytes rest get := by
  simp [format_bytes, h]

theorem format_bytes_cons_inc {o : Options} (name : String) (rest : Schema)
    (get : String → PyVal) (h : o.field_info.exclude = false) :
    format_bytes ((name, o) :: rest) get =
      encodeField name o (get name) >>= fun b =>
        format_bytes rest get >>= fun bs => .ok (b ++ bs) := by
  simp [format_bytes, h]

theorem parseLoop_nil (raw : Bytes) (i : Nat) : parseLoop [] raw i = .ok [] := rfl

theorem parseLoop_cons_ex {o : Options} (name : String) (rest : Schema)
    (raw : Bytes) (i : Nat) (h : o.field_info.exclude = true) :
    parseLoop ((name, o) :: rest) raw i = parseLoop rest raw i := by
  simp [parseLoop, h]

theorem parseLoop_cons_inc {o : Options} (name : String) (rest : Schema)
    (raw : Bytes) (i : Nat) (h : o.field_info.exclude = false) :
    parseLoop ((name, o) :: rest) raw i =
      decodeField o ((raw.drop i).take o.length) >>= fun v =>
        parseLoop rest raw (i + o.length) >>= fun vs => .ok ((name, v) :: vs) := by
  simp [parseLoop, h]

theorem parseLoop_shift (schema : Schema) (front raw : Bytes) (i : Nat) :
    parseLoop schema (front ++ raw) (front.length + i) = parseLoop schema raw i := by
  induction schema generalizing i with
  | nil => rfl
  | cons p rest ih =>
    obtain ⟨name, o⟩ := p
    by_cases hex : o.field_info.exclude = true
    · rw [parseLoop_cons_ex name rest _ _ hex, parseLoop_cons_ex name rest _ _ hex, ih]
    · rw [Bool.not_eq_true] at hex
      rw [parseLoop_cons_inc name rest _ _ hex, parseLoop_cons_inc name rest _ _ hex,
        List.drop_append i, Nat.add_assoc, ih]

theorem mem_sortInsert (x y : String × Options) (l : List (String × Options)) :
    y ∈ sortInsert x l ↔ y = x ∨ y ∈ l := by
  induction l with
  | nil => simp [sortInsert]
  | cons z zs ih =>
    rw [sortInsert]
    split
    · simp [List.mem_cons]
    · rw [List.mem_cons, ih, List.mem_cons]
      tauto

theorem mem_sortByOrder (y : String × Options) (l : List (String × Options)) :
    y ∈ sortByOrder l ↔ y ∈ l := by
  induction l with
  | nil => simp [sortByOrder]
  | cons z zs ih => rw [sortByOrder, mem_sortInsert, ih, List.mem_cons]

theorem mapM_load_names (l : List (String × FieldInfo)) (loaded : List (String × Options))
    (h : l.mapM (fun kv => do
        let o ← Options.load_from kv.2
        pure (kv.1, o)) = .ok loaded) :
    loaded.map Prod.fst = l.map Prod.fst := by
  induction l generalizing loaded with
  | nil => cases h; rfl
  | cons kv rest ih =>
    rw [List.mapM_cons] at h
    cases hload : Options.load_from kv.2 with
    | error e => rw [hload] at h; cases h
    | ok o =>
      rw [hload] at h
      simp only [exceptOkBind] at h
      cases hrest : rest.mapM (fun kv => do
          let o ← Options.load_from kv.2
          pure (kv.1, o)) with
      | error e => rw [hrest] at h; cases h
      | ok loaded' =>
        rw [hrest] at h
        simp only [exceptOkBind] at h
        cases h
        simp [ih loaded' hrest]

theorem nodup_keys_eq {α : Type} {l : List (String × α)} {k : String} {a b : α}
    (hnd : (l.map Prod.fst).Nodup) (ha : (k, a) ∈ l) (hb : (k, b) ∈ l) : a = b := by
  induction l with
  | nil => cases ha
  | cons p rest ih =>
    rw [List.map_cons, List.nodup_cons] at hnd
    rcases List.mem_cons.mp ha with h1 | h1 <;> rcases List.mem_cons.mp hb with h2 | h2
    · rw [← h2] at h1; exact congrArg Prod.snd h1
    · exfalso
      have hk : k ∈ rest.map Prod.fst := by
        simpa using List.mem_map_of_mem Prod.fst h2
      have hp1 : p.1 = k := by rw [← h1]
      exact hnd.1 (hp1 ▸ hk)
    · exfalso
      have hk : k ∈ rest.map Prod.fst := by
        simpa using List.mem_map_of_mem Prod.fst h1
      have hp1 : p.1 = k := by rw [← h2]
      exact hnd.1 (hp1 ▸ hk)
    · exact ih hnd.2 h1 h2

theorem validate_dump (o : Options) (entries : List (String × DVal))
    (hfb : o.fill_byte.length = 1) :
    Options.model_validate (dictUpdate entries o.model_dump) = .ok o := by
  obtain ⟨fi, len, ord, j, fb, enc, fs, ts, fbs, tbs⟩ := o
  cases j <;>
    (simp [Options.model_validate, vFieldInfo, vData, vLength, vOrder, vJustify,
        vFillByte, vEncoding, vFromStr, vToStr, vFromBytes, vToBytes,
        dictUpdate, Options.model_dump, dictGet, hfb, Int.toNat_natCast]
     rw [if_neg (Int.not_lt.mpr (Int.natCast_nonneg len))]
     rfl)

theorem dictGet_append_some {key : String} {l1 : List (String × DVal)} {d : DVal}
    (l2 : List (String × DVal)) (h : dictGet key l1 = some d) :
    dictGet key (l1 ++ l2) = some d := by
  induction l1 with
  | nil => cases h
  | cons p rest ih =>
    rw [List.cons_append, dictGet]
    rw [dictGet] at h
    split at h
    · split
      · exact h
      · simp_all
    · split
      · simp_all
      · exact ih h

theorem dictGet_append_none {key : String} {l1 : List (String × DVal)}
    (l2 : List (String × DVal)) (h : dictGet key l1 = none) :
    dictGet key (l1 ++ l2) = dictGet key l2 := by
  induction l1 with
  | nil => rfl
  | cons p rest ih =>
    rw [List.cons_append, dictGet]
    rw [dictGet] at h
    split at h
    · cases h
    · split
      · simp_all
      · exact ih h

theorem dictGet_skip (key k : String) (v : DVal) (l1 l2 : List (String × DVal))
    (h : k ≠ key) :
    dictGet key (l1 ++ (k, v) :: l2) = dictGet key (l1 ++ l2) := by
  induction l1 with
  | nil => simp [dictGet, h]
  | cons p rest ih =>
    rw [List.cons_append, List.cons_append, dictGet, dictGet]
    split
    · rfl
    · exact ih

theorem dictGet_filter_none {key : String} {l : List (String × DVal)}
    (p : String × DVal → Bool) (h : dictGet key l = none) :
    dictGet key (l.filter p) = none := by
  induction l with
  | nil => rfl
  | cons q rest ih =>
    rw [dictGet] at h
    split at h
    · cases h
    · rw [List.filter]
      split
      · rw [dictGet]
        split
        · simp_all
        · exact ih h
      · exact ih h

theorem vOrder_ok_inv {cfg : List (String × DVal)} {n : Int}
    (h : vOrder cfg = .ok n) : dictGet "order" cfg = some (.dint n) := by
  unfold vOrder at h
  split at h
  · cases h; assumption
  · cases h

theorem vLength_ok_inv {cfg : List (String × DVal)} {n : Nat}
    (h : vLength cfg = .ok n) : dictGet "length" cfg = some (.dint n) := by
  unfold vLength at h
  split at h
  case h_1 m heq =>
    split at h
    · cases h
    · cases h
      rw [heq]
      congr 2
      omega
  · cases h

theorem vFillByte_ok_inv {cfg : List (String × DVal)} {b : Bytes}
    (h : vFillByte cfg = .ok b) :
    b.length = 1 ∧ (dictGet "fill_byte" cfg = none → b = [32]) := by
  unfold vFillByte at h
  split at h
  case h_1 b0 heq =>
    split at h
    · cases h
      exact ⟨by assumption, fun hc => by rw [heq] at hc; cases hc⟩
    · cases h
  case h_2 =>
    cases h
    exact ⟨rfl, fun _ => rfl⟩
  case h_3 heq hne =>
    cases h

theorem vData_ok_inv {cfg : List (String × DVal)} {d : OptionsData}
    (h : vData cfg = .ok d) :
    vLength cfg = .ok d.length ∧ vOrder cfg = .ok d.order ∧
      vJustify cfg = .ok d.justify ∧ vFillByte cfg = .ok d.fill_byte := by
  unfold vData at h
  cases h1 : vLength cfg with
  | error e => rw [h1] at h; cases h
  | ok len =>
    rw [h1] at h
    simp only [exceptOkBind] at h
    cases h2 : vOrder cfg with
    | error e => rw [h2] at h; cases h
    | ok ord =>
      rw [h2] at h
      simp only [exceptOkBind] at h
      cases h3 : vJustify cfg with
      | error e => rw [h3] at h; cases h
      | ok j =>
        rw [h3] at h
        simp only [exceptOkBind] at h
        cases h4 : vFillByte cfg with
        | error e => rw [h4] at h; cases h
        | ok fb =>
          rw [h4] at h
          simp only [exceptOkBind] at h
          cases h5 : vEncoding cfg with
          | error e => rw [h5] at h; cases h
          | ok enc =>
            rw [h5] at h
            simp only [exceptOkBind] at h
            cases h6 : vFromStr cfg with
            | error e => rw [h6] at h; cases h
            | ok fs =>
              rw [h6] at h
              simp only [exceptOkBind] at h
              cases h7 : vToStr cfg with
              | error e => rw [h7] at h; cases h
              | ok ts =>
                rw [h7] at h
                simp only [exceptOkBind] at h
                cases h8 : vFromBytes cfg with
                | error e => rw [h8] at h; cases h
                | ok fbs =>
                  rw [h8] at h
                  simp only [exceptOkBind] at h
                  cases h9 : vToBytes cfg with
                  | error e => rw [h9] at h; cases h
                  | ok tbs =>
                    rw [h9] at h
                    simp only [exceptOkBind] at h
                    cases h
                    exact ⟨rfl, rfl, rfl, rfl⟩

theorem validate_ok_inv {cfg : List (String × DVal)} {o : Options}
    (h : Options.model_validate cfg = .ok o) :
    vFieldInfo cfg = .ok o.field_info ∧
      vData cfg = .ok ⟨o.length, o.order, o.justify, o.fill_byte, o.encoding,
        o.from_str, o.to_str, o.from_bytes, o.to_bytes⟩ := by
  unfold Options.model_validate at h
  cases h1 : vFieldInfo cfg with
  | error e => rw [h1] at h; cases h
  | ok fi =>
    rw [h1] at h
    simp only [exceptOkBind] at h
    cases h2 : vData cfg with
    | error e => rw [h2] at h; cases h
    | ok d =>
      rw [h2] at h
      simp only [exceptOkBind] at h
      cases h
      exact ⟨rfl, rfl⟩

theorem vData_config_indep (F : List (String × DVal)) (X Y : FieldInfo) (c : Int) :
    vData (F ++ [("field_info", .dfield X), ("order", .dint c)]) =
      vData (F ++ [("field_info", .dfield Y), ("order", .dint c)]) := by
  have hXY : ∀ key : String, key ≠ "field_info" →
      dictGet key (F ++ [("field_info", .dfield X), ("order", .dint c)]) =
        dictGet key (F ++ [("field_info", .dfield Y), ("order", .dint c)]) := by
    intro key hk
    rw [dictGet_skip key "field_info" (.dfield X) F _ (Ne.symm hk),
      dictGet_skip key "field_info" (.dfield Y) F _ (Ne.symm hk)]
  unfold vData vLength vOrder vJustify vFillByte vEncoding vFromStr vToStr
    vFromBytes vToBytes
  rw [hXY "length" (by decide), hXY "order" (by decide), hXY "justify" (by decide),
    hXY "fill_byte" (by decide), hXY "encoding" (by decide), hXY "from_str" (by decide),
    hXY "to_str" (by decide), hXY "from_bytes" (by decide), hXY "to_bytes" (by decide)]

theorem validate_layout_indep (F : List (String × DVal)) (X Y : FieldInfo) (c : Int) :
    (Options.model_validate
        (F ++ [("field_info", .dfield X), ("order", .dint c)])).map Options.layout =
      (Options.model_validate
        (F ++ [("field_info", .dfield Y), ("order", .dint c)])).map Options.layout := by
  unfold Options.model_validate
  have hd := vData_config_indep F X Y c
  cases hfi : dictGet "field_info" F with
  | some d =>
    have h1 : vFieldInfo (F ++ [("field_info", .dfield X), ("order", .dint c)]) =
        vFieldInfo (F ++ [("field_info", .dfield Y), ("order", .dint c)]) := by
      unfold vFieldInfo
      rw [dictGet_append_some _ hfi, dictGet_append_some _ hfi]
    rw [h1, hd]
  | none =>
    have h1 : vFieldInfo (F ++ [("field_info", .dfield X), ("order", .dint c)]) = .ok X := by
      unfold vFieldInfo
      rw [dictGet_append_none _ hfi]
      rfl
    have h2 : vFieldInfo (F ++ [("field_info", .dfield Y), ("order", .dint c)]) = .ok Y := by
      unfold vFieldInfo
      rw [dictGet_append_none _ hfi]
      rfl
    rw [h1, h2, hd]
    simp only [exceptOkBind]
    cases vData (F ++ [("field_info", .dfield Y), ("order", .dint c)]) with
    | error e => rfl
    | ok d => rfl

theorem sortInsert_front (x : String × Options) (l : List (String × Options))
    (h : ∀ y ∈ l, x.2.order < y.2.order) : sortInsert x l = x :: l := by
  cases l with
  | nil => rfl
  | cons y ys =>
    rw [sortInsert, if_pos (h y (List.mem_cons_self _ _))]

theorem sortByOrder_sorted_id (l : List (String × Options))
    (h : l.Pairwise fun a b => a.2.order < b.2.order) : sortByOrder l = l := by
  induction l with
  | nil => rfl
  | cons x xs ih =>
    rw [List.pairwise_cons] at h
    rw [sortByOrder, ih h.2, sortInsert_front x xs h.1]

theorem dictGet_eq_none_of_no_key {key : String} {l : List (String × DVal)}
    (h : ∀ kv ∈ l, kv.1 ≠ key) : dictGet key l = none := by
  induction l with
  | nil => rfl
  | cons p rest ih =>
    rw [dictGet]
    split
    · exact absurd (by assumption) (h p (List.mem_cons_self _ _))
    · exact ih fun kv hkv => h kv (List.mem_cons_of_mem _ hkv)

theorem save_to_ok_inv {o : Options} {fi fi' : FieldInfo}
    (h : o.save_to fi = .ok fi') :
    ∃ entries, fi.json_schema_extra = .jdict entries ∧
      fi' = .mk fi.dflt fi.exclude (.jdict (dictUpdate entries o.model_dump)) := by
  unfold Options.save_to at h
  split at h
  case h_1 entries heq =>
    cases h
    exact ⟨entries, heq, rfl⟩
  case h_2 => cases h

theorem orderedField_excluded_spec {kwargs : List (String × DVal)} {c : Nat}
    {fi' : FieldInfo} {c' : Nat}
    (hex : (Field kwargs).exclude = true)
    (h : OrderedField kwargs c = .ok (fi', c')) :
    fi' = Field kwargs ∧ c' = c := by
  have h' : (if (Field kwargs).exclude then Except.ok (Field kwargs, c)
      else builtOptions kwargs c >>= fun options =>
        options.save_to (Field kwargs) >>= fun field' =>
          Except.ok (field', c + 1)) = .ok (fi', c') := h
  rw [hex] at h'
  simp only [if_true] at h'
  cases h'
  exact ⟨rfl, rfl⟩

theorem orderedField_included_spec {kwargs : List (String × DVal)} {c : Nat}
    {fi' : FieldInfo} {c' : Nat}
    (hno : ∀ kv ∈ kwargs, kv.1 ≠ "order" ∧ kv.1 ≠ "field_info")
    (hex : (Field kwargs).exclude = false)
    (h : OrderedField kwargs c = .ok (fi', c')) :
    c' = c + 1 ∧ fi'.exclude = false ∧
    ∃ o, Options.load_from fi' = .ok o ∧ o.order = (c : Int) ∧
      o.field_info.exclude = false := by
  have h' : (if (Field kwargs).exclude then Except.ok (Field kwargs, c)
      else builtOptions kwargs c >>= fun options =>
        options.save_to (Field kwargs) >>= fun field' =>
          Except.ok (field', c + 1)) = .ok (fi', c') := h
  rw [hex] at h'
  simp only [if_false, Bool.false_eq_true] at h'
  cases hbo : builtOptions kwargs c with
  | error e => rw [hbo] at h'; cases h'
  | ok o =>
    rw [hbo] at h'
    simp only [exceptOkBind] at h'
    cases hsv : o.save_to (Field kwargs) with
    | error e => rw [hsv] at h'; cases h'
    | ok fi2 =>
      rw [hsv] at h'
      simp only [exceptOkBind] at h'
      cases h'
      obtain ⟨hfi, hdata⟩ := validate_ok_inv hbo
      obtain ⟨-, hord, -, hfb⟩ := vData_ok_inv hdata
      obtain ⟨hfb1, -⟩ := vFillByte_ok_inv hfb
      have hnoO : dictGet "order"
          (kwargs.filter fun kv => optionsFieldNames.contains kv.1) = none :=
        dictGet_filter_none _ (dictGet_eq_none_of_no_key fun kv hkv => (hno kv hkv).1)
      have hnoF : dictGet "field_info"
          (kwargs.filter fun kv => optionsFieldNames.contains kv.1) = none :=
        dictGet_filter_none _ (dictGet_eq_none_of_no_key fun kv hkv => (hno kv hkv).2)
      have hcfgO : dictGet "order" (orderedFieldConfig kwargs (Field kwargs) c) =
          some (.dint (c : Int)) := by
        unfold orderedFieldConfig
        rw [dictGet_append_none _ hnoO]
        rfl
      have hcfgF : dictGet "field_info" (orderedFieldConfig kwargs (Field kwargs) c) =
          some (.dfield (Field kwargs)) := by
        unfold orderedFieldConfig
        rw [dictGet_append_none _ hnoF]
        rfl
      have hordc : o.order = (c : Int) := by
        have hh := vOrder_ok_inv hord
        rw [hcfgO] at hh
        have h2 : DVal.dint (c : Int) = .dint o.order := by simpa using hh
        simpa using h2.symm
      have hfield : o.field_info = Field kwargs := by
        have h1 : vFieldInfo (orderedFieldConfig kwargs (Field kwargs) c) =
            .ok (Field kwargs) := by
          unfold vFieldInfo
          rw [hcfgF]
        rw [h1] at hfi
        have h2 : Field kwargs = o.field_info := by simpa using hfi
        exact h2.symm
      obtain ⟨entries, hje, hfi2⟩ := save_to_ok_inv hsv
      refine ⟨rfl, ?_, o, ?_, hordc, by rw [hfield]; exact hex⟩
      · rw [hfi2]
        exact hex
      · rw [hfi2, Options.load_from]
        exact validate_dump o entries hfb1

theorem declare_spec (decls : FieldDecls) (c : Nat)
    (hno : ∀ d ∈ decls, ∀ kv ∈ d.2, kv.1 ≠ "order" ∧ kv.1 ≠ "field_info") :
    ∀ {mf : List (String × FieldInfo)} {c' : Nat},
      declareFields decls c = .ok (mf, c') →
      c ≤ c' ∧
      ∃ loaded : List (String × Options),
        ((mf.filter fun kv => !kv.2.exclude).mapM fun kv => do
          let o ← Options.load_from kv.2
          pure (kv.1, o)) = .ok loaded ∧
        loaded.map Prod.fst =
          (decls.filter fun d => !(Field d.2).exclude).map Prod.fst ∧
        (loaded.Pairwise fun a b => a.2.order < b.2.order) ∧
        (∀ p ∈ loaded, (c : Int) ≤ p.2.order ∧ p.2.order < (c' : Int)) ∧
        (∀ p ∈ loaded, p.2.field_info.exclude = false) := by
  induction decls generalizing c with
  | nil =>
    intro mf c' h
    cases h
    refine ⟨Nat.le_refl c, [], rfl, rfl, List.Pairwise.nil, ?_, ?_⟩
    · intro p hp
      cases hp
    · intro p hp
      cases hp
  | cons d rest ih =>
    obtain ⟨name, kwargs⟩ := d
    intro mf c' h
    rw [declareFields] at h
    cases hof : OrderedField kwargs c with
    | error e => rw [hof] at h; cases h
    | ok pr =>
      obtain ⟨fi1, c1⟩ := pr
      rw [hof] at h
      simp only [exceptOkBind] at h
      cases hrest : declareFields rest c1 with
      | error e => rw [hrest] at h; cases h
      | ok pr2 =>
        obtain ⟨fis, c2⟩ := pr2
        rw [hrest] at h
        simp only [exceptOkBind] at h
        cases h
        have hnorest : ∀ d ∈ rest, ∀ kv ∈ d.2, kv.1 ≠ "order" ∧ kv.1 ≠ "field_info" :=
          fun d hd => hno d (List.mem_cons_of_mem _ hd)
        by_cases hex : (Field kwargs).exclude = true
        · obtain ⟨hfi1, hc1⟩ := orderedField_excluded_spec hex hof
          subst hfi1
          rw [hc1] at hrest
          obtain ⟨hc, loaded, hmapm, hnames, hpw, hbounds, hinc⟩ := ih c hnorest hrest
          refine ⟨hc, loaded, ?_, ?_, hpw, hbounds, hinc⟩
          · rw [List.filter_cons]
            simp only [hex]
            exact hmapm
          · rw [List.filter_cons]
            simp only [hex]
            exact hnames
        · rw [Bool.not_eq_true] at hex
          obtain ⟨hc1, hfi1ex, o, hload, hord, hoinc⟩ :=
            orderedField_included_spec (hno (name, kwargs) (List.mem_cons_self _ _)) hex hof
          subst hc1
          obtain ⟨hc2, loaded', hmapm', hnames', hpw', hbounds', hinc'⟩ :=
            ih (c + 1) hnorest hrest
          refine ⟨by omega, (name, o) :: loaded', ?_, ?_, ?_, ?_, ?_⟩
          · rw [List.filter_cons]
            simp only [hfi1ex, Bool.not_false, if_pos]
            rw [List.mapM_cons]
            simp only [hload, exceptOkBind, hmapm']
            rfl
          · rw [List.filter_cons]
            simp only [hex, Bool.not_false, if_pos]
            simp only [List.map_cons]
            rw [hnames']
          · rw [List.pairwise_cons]
            refine ⟨fun y hy => ?_, hpw'⟩
            have := (hbounds' y hy).1
            rw [hord]
            push_cast at this ⊢
            omega
          · intro p hp
            rcases List.mem_cons.mp hp with h1 | h1
            · subst h1
              rw [hord]
              constructor
              · exact le_refl _
              · omega
            · obtain ⟨hl, hr⟩ := hbounds' p h1
              constructor
              · push_cast at hl ⊢
                omega
              · exact hr
          · intro p hp
            rcases List.mem_cons.mp hp with h1 | h1
            · subst h1
              exact hoinc
            · exact hinc' p h1

theorem buildClass_spec {decls : FieldDecls} {c0 : Nat} {schema : Schema}
    (hno : ∀ d ∈ decls, ∀ kv ∈ d.2, kv.1 ≠ "order" ∧ kv.1 ≠ "field_info")
    (h : buildClass decls c0 = .ok schema) :
    schema.map Prod.fst = (decls.filter fun d => !(Field d.2).exclude).map Prod.fst ∧
    ∀ p ∈ schema, p.2.field_info.exclude = false := by
  unfold buildClass at h
  cases hd : declareFields decls c0 with
  | error e => rw [hd] at h; cases h
  | ok pr =>
    obtain ⟨mf, c'⟩ := pr
    rw [hd] at h
    simp only [exceptOkBind] at h
    obtain ⟨-, loaded, hmapm, hnames, hpw, -, hinc⟩ := declare_spec decls c0 hno hd
    rw [show init_subclass mf = ((mf.filter fun kv => !kv.2.exclude).mapM (fun kv => do
        let o ← Options.load_from kv.2
        pure (kv.1, o))) >>= (fun loaded => Except.ok (sortByOrder loaded)) from rfl] at h
    rw [hmapm] at h
    simp only [exceptOkBind] at h
    rw [sortByOrder_sorted_id loaded hpw] at h
    cases h
    exact ⟨hnames, hinc⟩

theorem format_single_decomp (schema : Schema) (get : String → PyVal) :
    ∀ bs : Bytes, (∀ p ∈ schema, p.2.field_info.exclude = false) →
      format_bytes schema get = .ok bs →
      ∀ i, ∀ hi : i < schema.length,
        ∃ pre bi post, bs = pre ++ bi ++ post ∧
          encodeField (schema.get ⟨i, hi⟩).1 (schema.get ⟨i, hi⟩).2
            (get (schema.get ⟨i, hi⟩).1) = .ok bi := by
  induction schema with
  | nil =>
    intro bs _ _ i hi
    exact absurd hi (by simp)
  | cons p rest ih =>
    intro bs hinc h i hi
    obtain ⟨name, o⟩ := p
    have hex : o.field_info.exclude = false := hinc (name, o) (List.mem_cons_self _ _)
    rw [format_bytes_cons_inc name rest get hex] at h
    cases henc : encodeField name o (get name) with
    | error e => rw [henc] at h; cases h
    | ok b =>
      rw [henc] at h
      simp only [exceptOkBind] at h
      cases hrest : format_bytes rest get with
      | error e => rw [hrest] at h; cases h
      | ok bs' =>
        rw [hrest] at h
        simp only [exceptOkBind] at h
        cases h
        cases i with
        | zero => exact ⟨[], b, bs', by simp, henc⟩
        | succ i' =>
          obtain ⟨pre, bi, post, heq, hencI⟩ :=
            ih bs' (fun q hq => hinc q (List.mem_cons_of_mem _ hq)) hrest i'
              (Nat.lt_of_succ_lt_succ hi)
          exact ⟨b ++ pre, bi, post, by rw [heq]; simp [List.append_assoc], hencI⟩

theorem format_pair_decomp (schema : Schema) (get : String → PyVal) :
    ∀ bs : Bytes, (∀ p ∈ schema, p.2.field_info.exclude = false) →
      format_bytes schema get = .ok bs →
      ∀ i j, ∀ hi : i < schema.length, ∀ hj : j < schema.length, i < j →
        ∃ pre bi mid bj post, bs = pre ++ bi ++ mid ++ bj ++ post ∧
          encodeField (schema.get ⟨i, hi⟩).1 (schema.get ⟨i, hi⟩).2
            (get (schema.get ⟨i, hi⟩).1) = .ok bi ∧
          encodeField (schema.get ⟨j, hj⟩).1 (schema.get ⟨j, hj⟩).2
            (get (schema.get ⟨j, hj⟩).1) = .ok bj := by
  induction schema with
  | nil =>
    intro bs _ _ i j hi hj _
    exact absurd hi (by simp)
  | cons p rest ih =>
    intro bs hinc h i j hi hj hij
    obtain ⟨name, o⟩ := p
    have hex : o.field_info.exclude = false := hinc (name, o) (List.mem_cons_self _ _)
    rw [format_bytes_cons_inc name rest get hex] at h
    cases henc : encodeField name o (get name) with
    | error e => rw [henc] at h; cases h
    | ok b =>
      rw [henc] at h
      simp only [exceptOkBind] at h
      cases hrest : format_bytes rest get with
      | error e => rw [hrest] at h; cases h
      | ok bs' =>
        rw [hrest] at h
        simp only [exceptOkBind] at h
        cases h
        cases j with
        | zero => exact absurd hij (by omega)
        | succ j' =>
          cases i with
          | zero =>
            obtain ⟨pre', bj, post', heq, hencJ⟩ :=
              format_single_decomp rest get bs'
                (fun q hq => hinc q (List.mem_cons_of_mem _ hq)) hrest j'
                (Nat.lt_of_succ_lt_succ hj)
            exact ⟨[], b, pre', bj, post', by rw [heq]; simp [List.append_assoc],
              henc, hencJ⟩
          | succ i' =>
            obtain ⟨pre, bi, mid, bj, post, heq, hencI, hencJ⟩ :=
              ih bs' (fun q hq => hinc q (List.mem_cons_of_mem _ hq)) hrest i' j'
                (Nat.lt_of_succ_lt_succ hi) (Nat.lt_of_succ_lt_succ hj)
                (Nat.lt_of_succ_lt_succ hij)
            exact ⟨b ++ pre, bi, mid, bj, post, by rw [heq]; simp [List.append_assoc],
              hencI, hencJ⟩

/-! ## Claim theorems -/

/-- C2: for every record that `format_bytes` encodes without error, the
length of the returned byte buffer equals the sum of the declared lengths of
the included (non-excluded) fields of the record's schema. -/
theorem length_invariant (schema : Schema) (get : String → PyVal) (bs : Bytes)
    (h : format_bytes schema get = .ok bs) : bs.length = totalLength schema := by
  induction schema generalizing bs with
  | nil =>
    rw [format_bytes_nil] at h
    cases h
    simp [totalLength, includedFields]
  | cons p rest ih =>
    obtain ⟨name, o⟩ := p
    by_cases hex : o.field_info.exclude = true
    · rw [format_bytes_cons_ex name rest get hex] at h
      rw [totalLength_cons_ex name rest hex]
      exact ih bs h
    · rw [Bool.not_eq_true] at hex
      rw [format_bytes_cons_inc name rest get hex] at h
      rw [totalLength_cons_inc name rest hex]
      cases henc : encodeField name o (get name) with
      | error e => rw [henc] at h; cases h
      | ok b =>
        rw [henc] at h
        cases hrest : format_bytes rest get with
        | error e => rw [hrest] at h; cases h
        | ok bs' =>
          rw [hrest] at h
          simp only [exceptOkBind] at h
          cases h
          obtain ⟨hle, hpad⟩ := encodeField_ok_inv henc
          simp [hpad, padField_length o _ hle, ih bs' hrest]

/-- Witness for C2: the test record's 54-byte buffer has length equal to the
schema's total declared length 8+6+10+10+20. -/
theorem length_invariant_witness :
    format_bytes someSchemaVal someRequest0.get = .ok testBytes ∧
      testBytes.length = totalLength someSchemaVal :=
  ⟨rfl, length_invariant someSchemaVal someRequest0.get testBytes rfl⟩

/-- C4: whenever a field value's encoded byte form fits in the declared
length, `encodeField` succeeds and returns exactly `length` bytes, with the
fill bytes appended on the right for `justify=left` and prepended on the
left for `justify=right`. -/
theorem padding_exactness (name : String) (o : Options) (v : PyVal)
    (h : (o.to_bytes (o.to_str v) o.encoding).length ≤ o.length) :
    ∃ bs, encodeField name o v = .ok bs ∧ bs.length = o.length ∧
      (o.justify = .left →
        bs = o.to_bytes (o.to_str v) o.encoding ++
          List.replicate (o.length - (o.to_bytes (o.to_str v) o.encoding).length)
            (fillByteOf o)) ∧
      (o.justify = .right →
        bs = List.replicate (o.length - (o.to_bytes (o.to_str v) o.encoding).length)
            (fillByteOf o) ++ o.to_bytes (o.to_str v) o.encoding) := by
  refine ⟨padField o (o.to_bytes (o.to_str v) o.encoding),
    encodeField_ok name o v h, padField_length o _ h, ?_, ?_⟩
  · intro hj
    simp [padField, hj, pyLjust]
  · intro hj
    simp [padField, hj, pyRjust]

theorem format_error_inv (schema : Schema) (get : String → PyVal) (e : OverflowError)
    (h : format_bytes schema get = .error e) :
    ∃ p ∈ includedFields schema,
      (p.2.to_bytes (p.2.to_str (get p.1)) p.2.encoding).length > p.2.length ∧
      e = ⟨p.1, p.2.to_bytes (p.2.to_str (get p.1)) p.2.encoding,
           (p.2.to_bytes (p.2.to_str (get p.1)) p.2.encoding).length, p.2.length⟩ := by
  induction schema with
  | nil => rw [format_bytes_nil] at h; cases h
  | cons p rest ih =>
    obtain ⟨name, o⟩ := p
    by_cases hex : o.field_info.exclude = true
    · rw [format_bytes_cons_ex name rest get hex] at h
      obtain ⟨q, hq, hover⟩ := ih h
      exact ⟨q, by rw [includedFields_cons_ex name rest hex]; exact hq, hover⟩
    · rw [Bool.not_eq_true] at hex
      rw [format_bytes_cons_inc name rest get hex] at h
      cases henc : encodeField name o (get name) with
      | error e0 =>
        rw [henc] at h
        simp only [exceptErrorBind] at h
        cases h
        obtain ⟨hover, hcontent⟩ := encodeField_error_inv henc
        exact ⟨(name, o),
          by rw [includedFields_cons_inc name rest hex]; exact List.mem_cons_self _ _,
          hover, hcontent⟩
      | ok b =>
        rw [henc] at h
        simp only [exceptOkBind] at h
        cases hrest : format_bytes rest get with
        | error e' =>
          rw [hrest] at h
          simp only [exceptErrorBind] at h
          cases h
          obtain ⟨q, hq, hover⟩ := ih hrest
          exact ⟨q,
            by rw [includedFields_cons_inc name rest hex]; exact List.mem_cons_of_mem _ hq,
            hover⟩
        | ok bs' =>
          rw [hrest] at h
          cases h

theorem format_error_of_overflow (schema : Schema) (get : String → PyVal)
    (h : ∃ p ∈ includedFields schema,
      (p.2.to_bytes (p.2.to_str (get p.1)) p.2.encoding).length > p.2.length) :
    ∃ e, format_bytes schema get = .error e := by
  induction schema with
  | nil => simp [includedFields] at h
  | cons p rest ih =>
    obtain ⟨name, o⟩ := p
    by_cases hex : o.field_info.exclude = true
    · rw [includedFields_cons_ex name rest hex] at h
      obtain ⟨e, he⟩ := ih h
      exact ⟨e, by rw [format_bytes_cons_ex name rest get hex]; exact he⟩
    · rw [Bool.not_eq_true] at hex
      rw [includedFields_cons_inc name rest hex] at h
      obtain ⟨q, hq, hover⟩ := h
      rcases List.mem_cons.mp hq with hhead | htail
      · subst hhead
        refine ⟨⟨name, o.to_bytes (o.to_str (get name)) o.encoding,
          (o.to_bytes (o.to_str (get name)) o.encoding).length, o.length⟩, ?_⟩
        rw [format_bytes_cons_inc name rest get hex,
          encodeField_error name o (get name) hover]
        rfl
      · cases henc : encodeField name o (get name) with
        | error e0 =>
          exact ⟨e0, by
            rw [format_bytes_cons_inc name rest get hex, henc]; rfl⟩
        | ok b =>
          obtain ⟨e, he⟩ := ih ⟨q, htail, hover⟩
          refine ⟨e, ?_⟩
          rw [format_bytes_cons_inc name rest get hex, henc]
          simp only [exceptOkBind]
          rw [he]
          rfl

/-- C3: `format_bytes` fails if and only if some included field's encoded
byte form is strictly longer than its declared length; on failure no byte
buffer is produced (the result is the error alone), and the error carries
the field name, the offending value's encoded bytes, their actual length and
the declared length of the first such field. -/
theorem overflow_iff (schema : Schema) (get : String → PyVal) :
    ((∃ e, format_bytes schema get = .error e) ↔
      ∃ p ∈ includedFields schema,
        (p.2.to_bytes (p.2.to_str (get p.1)) p.2.encoding).length > p.2.length) ∧
    (∀ e, format_bytes schema get = .error e →
      (∀ bs, format_bytes schema get ≠ .ok bs) ∧
      ∃ p ∈ includedFields schema,
        (p.2.to_bytes (p.2.to_str (get p.1)) p.2.encoding).length > p.2.length ∧
        e = ⟨p.1, p.2.to_bytes (p.2.to_str (get p.1)) p.2.encoding,
             (p.2.to_bytes (p.2.to_str (get p.1)) p.2.encoding).length, p.2.length⟩) := by
  refine ⟨⟨fun ⟨e, he⟩ => ?_, format_error_of_overflow schema get⟩, fun e he => ⟨?_, ?_⟩⟩
  · obtain ⟨p, hp, hover, _⟩ := format_error_inv schema get e he
    exact ⟨p, hp, hover⟩
  · intro bs hbs
    rw [he] at hbs
    cases hbs
  · exact format_error_inv schema get e he

/-- C1 counterexample: on the class-built schema with a right-justified
`'0'`-filled field, the value `"X"` fits its field (1 byte ≤ 5) and is stable
under the field's `from_str`/`to_str` pair, yet decoding the encoded bytes
yields `"0000X"`, not `"X"` — the claim's hypothesis does not guarantee the
round trip. -/
theorem roundtrip_counterexample :
    buildClass cexDecls 0 = .ok cexSchema ∧
    (cexOpts.to_bytes (cexOpts.to_str (.vstr "X")) cexOpts.encoding).length ≤
      cexOpts.length ∧
    cexOpts.from_str (cexOpts.to_str (.vstr "X")) = .ok (.vstr "X") ∧
    format_bytes cexSchema (fun _ => .vstr "X") = .ok (strBytes "0000X") ∧
    parse_values cexSchema (strBytes "0000X") = .ok [("f", .vstr "0000X")] ∧
    PyVal.vstr "0000X" ≠ .vstr "X" :=
  ⟨rfl, by decide, rfl, rfl, rfl, by decide⟩

/-- C1 amended: for every record whose field values' encoded byte form fits
within each field's declared length and whose *padded* representation is
stable under the field's `from_bytes`/`from_str` pair, `parse_bytes` of the
`format_bytes` output reconstructs every included field's original value. -/
theorem roundtrip (schema : Schema) (get : String → PyVal)
    (h : ∀ p ∈ schema, p.2.field_info.exclude = false →
      (p.2.to_bytes (p.2.to_str (get p.1)) p.2.encoding).length ≤ p.2.length ∧
      decodeField p.2
          (padField p.2 (p.2.to_bytes (p.2.to_str (get p.1)) p.2.encoding)) =
        .ok (get p.1)) :
    ∃ bs, format_bytes schema get = .ok bs ∧
      parse_values schema bs = .ok ((includedFields schema).map fun p => (p.1, get p.1)) := by
  induction schema with
  | nil => exact ⟨[], rfl, rfl⟩
  | cons p rest ih =>
    obtain ⟨name, o⟩ := p
    obtain ⟨bs', hfmt', hparse'⟩ := ih fun q hq => h q (List.mem_cons_of_mem _ hq)
    by_cases hex : o.field_info.exclude = true
    · refine ⟨bs', ?_, ?_⟩
      · rw [format_bytes_cons_ex name rest get hex]; exact hfmt'
      · rw [parse_values, parseLoop_cons_ex name rest _ _ hex,
          includedFields_cons_ex name rest hex]
        exact hparse'
    · rw [Bool.not_eq_true] at hex
      obtain ⟨hle, hdec⟩ := h (name, o) (List.mem_cons_self _ _) hex
      refine ⟨padField o (o.to_bytes (o.to_str (get name)) o.encoding) ++ bs', ?_, ?_⟩
      · rw [format_bytes_cons_inc name rest get hex, encodeField_ok name o (get name) hle]
        simp only [exceptOkBind]
        rw [hfmt']
        rfl
      · rw [parse_values, parseLoop_cons_inc name rest _ _ hex]
        have hplen : (padField o (o.to_bytes (o.to_str (get name)) o.encoding)).length
            = o.length := padField_length o _ hle
        rw [List.drop_zero]
        rw [show (padField o (o.to_bytes (o.to_str (get name)) o.encoding)
            ++ bs').take o.length
          = padField o (o.to_bytes (o.to_str (get name)) o.encoding) by
          rw [← hplen]; exact List.take_left _ _]
        rw [hdec]
        simp only [exceptOkBind]
        rw [show 0 + o.length
          = (padField o (o.to_bytes (o.to_str (get name)) o.encoding)).length + 0 by
          omega]
        rw [parseLoop_shift rest _ bs' 0]
        rw [show parseLoop rest bs' 0 = parse_values rest bs' from rfl, hparse']
        simp only [exceptOkBind]
        rw [includedFields_cons_inc name rest hex]
        rfl

/-- Witness for C1 (amended): the all-defaults length-5 field holding `"ab"`
round-trips: the encode yields a buffer whose parse returns `"ab"` for the
field. -/
theorem roundtrip_witness :
    ∃ bs, format_bytes rtSchema rtGet = .ok bs ∧
      parse_values rtSchema bs =
        .ok ((includedFields rtSchema).map fun p => (p.1, rtGet p.1)) :=
  roundtrip rtSchema rtGet (by
    intro p hp _
    simp only [rtSchema, List.mem_singleton] at hp
    subst hp
    exact ⟨by decide, rfl⟩)

/-- Witness for C3: a 6-byte value in the length-5 field errors with the
field name, the encoded bytes, 6 and 5; and the overflow condition holds on
the schema. -/
theorem overflow_iff_witness :
    format_bytes [("f", padRightOpts)] (fun _ => .vstr "XXXXXX") =
      .error ⟨"f", strBytes "XXXXXX", 6, 5⟩ ∧
    ∃ e, format_bytes [("f", padRightOpts)] (fun _ => .vstr "XXXXXX") = .error e :=
  ⟨rfl, (overflow_iff [("f", padRightOpts)] (fun _ => .vstr "XXXXXX")).1.mpr
    ⟨("f", padRightOpts), List.mem_cons_self _ _, by decide⟩⟩

/-- C6 counterexample: the test record does not encode to the claimed buffer
with the zero-filled `"0000000381"` number field — the `fill_char` keyword is
not an `Options` field name, so the number field keeps the default space
fill and encodes as `"       381"`. -/
theorem concrete_scenario_counterexample :
    someRequestFormat someRequest0 = .ok testBytes ∧ testBytes ≠ claimedBytes :=
  ⟨rfl, by decide⟩

/-- C6 amended: the test record encodes to exactly the 54 bytes
`"<DFG&   "` + UTF-8 of `"한글"` + `"       381"` (space-filled: the misspelt
`fill_char` option is discarded) + 10 spaces + `"20240123141120124277"`, and
decoding that buffer reconstructs a record equal to the original. -/
theorem concrete_scenario :
    someRequestFormat someRequest0 =
      .ok (strBytes "<DFG&   " ++ strBytes "한글" ++ strBytes "       381" ++
        strBytes "          " ++ strBytes "20240123141120124277") ∧
    testBytes.length = 54 ∧
    someRequestParse testBytes = .ok someRequest0 :=
  ⟨rfl, rfl, rfl⟩

/-- C7: an excluded field never makes it into the schema built by
`__pydantic_init_subclass__`, contributes zero bytes to `format_bytes`
(which behaves as if the entry were absent, so the field is never read), and
consumes zero bytes of `parse_bytes`' input at any offset (so it is never
written). -/
theorem exclusion :
    (∀ (mf : List (String × FieldInfo)) (schema : Schema) (name : String) (fi : FieldInfo),
      (mf.map Prod.fst).Nodup → (name, fi) ∈ mf → fi.exclude = true →
      init_subclass mf = .ok schema → name ∉ schema.map Prod.fst) ∧
    (∀ (s1 s2 : Schema) (name : String) (o : Options) (get : String → PyVal),
      o.field_info.exclude = true →
      format_bytes (s1 ++ (name, o) :: s2) get = format_bytes (s1 ++ s2) get) ∧
    (∀ (s1 s2 : Schema) (name : String) (o : Options) (raw : Bytes) (i : Nat),
      o.field_info.exclude = true →
      parseLoop (s1 ++ (name, o) :: s2) raw i = parseLoop (s1 ++ s2) raw i) := by
  refine ⟨?_, ?_, ?_⟩
  · intro mf schema name fi hnd hmem hex hok hname
    rw [show init_subclass mf = ((mf.filter fun kv => !kv.2.exclude).mapM (fun kv => do
        let o ← Options.load_from kv.2
        pure (kv.1, o))) >>= (fun loaded => Except.ok (sortByOrder loaded)) from rfl] at hok
    cases hload : (mf.filter fun kv => !kv.2.exclude).mapM (fun kv => do
        let o ← Options.load_from kv.2
        pure (kv.1, o)) with
    | error e => rw [hload] at hok; cases hok
    | ok loaded =>
      rw [hload] at hok
      simp only [exceptOkBind] at hok
      cases hok
      obtain ⟨p, hp, hp1⟩ := List.mem_map.mp hname
      have hp' : p ∈ loaded := (mem_sortByOrder p loaded).mp hp
      have hnames : loaded.map Prod.fst =
          (mf.filter fun kv => !kv.2.exclude).map Prod.fst :=
        mapM_load_names _ loaded hload
      have : name ∈ (mf.filter fun kv => !kv.2.exclude).map Prod.fst := by
        rw [← hnames]
        exact hp1 ▸ List.mem_map_of_mem Prod.fst hp'
      obtain ⟨q, hq, hq1⟩ := List.mem_map.mp this
      have hqmem := List.mem_filter.mp hq
      have : fi = q.2 := by
        have := nodup_keys_eq hnd hmem (a := fi) (b := q.2)
        exact this (by rw [← hq1]; exact hqmem.1)
      rw [this] at hex
      rw [hex] at hqmem
      simp at hqmem
  · intro s1 s2 name o get hex
    induction s1 with
    | nil => exact format_bytes_cons_ex name s2 get hex
    | cons q s1' ih =>
      obtain ⟨nq, oq⟩ := q
      by_cases hq : oq.field_info.exclude = true
      · rw [List.cons_append, List.cons_append,
          format_bytes_cons_ex nq _ get hq, format_bytes_cons_ex nq _ get hq, ih]
      · rw [Bool.not_eq_true] at hq
        rw [List.cons_append, List.cons_append,
          format_bytes_cons_inc nq _ get hq, format_bytes_cons_inc nq _ get hq]
        simp only [ih]
  · intro s1 s2 name o raw i hex
    induction s1 generalizing i with
    | nil => exact parseLoop_cons_ex name s2 raw i hex
    | cons q s1' ih =>
      obtain ⟨nq, oq⟩ := q
      by_cases hq : oq.field_info.exclude = true
      · rw [List.cons_append, List.cons_append,
          parseLoop_cons_ex nq _ raw i hq, parseLoop_cons_ex nq _ raw i hq, ih]
      · rw [Bool.not_eq_true] at hq
        rw [List.cons_append, List.cons_append,
          parseLoop_cons_inc nq _ raw i hq, parseLoop_cons_inc nq _ raw i hq]
        simp only [ih]

/-- Witness for C7: on concrete data, the excluded `"x"` field is missing
from the built schema, and adding an excluded entry to a schema changes
neither the formatted bytes nor the parsed values. -/
theorem exclusion_witness :
    ("x" ∉ (sortByOrder [("f", rtOpts)]).map Prod.fst) ∧
    format_bytes [("f", rtOpts), ("x", exOpt)] rtGet = format_bytes [("f", rtOpts)] rtGet ∧
    parseLoop [("f", rtOpts), ("x", exOpt)] (strBytes "ab   ") 0 =
      parseLoop [("f", rtOpts)] (strBytes "ab   ") 0 := by
  refine ⟨?_, ?_, ?_⟩
  · exact exclusion.1 mfC7 (sortByOrder [("f", rtOpts)]) "x" exA (by decide)
      (List.mem_cons_of_mem _ (List.mem_cons_self _ _)) rfl rfl
  · exact exclusion.2.1 [("f", rtOpts)] [] "x" exOpt rtGet rfl
  · exact exclusion.2.2 [("f", rtOpts)] [] "x" exOpt (strBytes "ab   ") 0 rfl

theorem parseLoop_eq_slices (schema : Schema) (raw : Bytes) (i : Nat) :
    parseLoop schema raw i =
      parseWithSlices (includedFields schema) (slicesFrom (includedFields schema) raw i) := by
  induction schema generalizing i with
  | nil => rfl
  | cons p rest ih =>
    obtain ⟨name, o⟩ := p
    by_cases hex : o.field_info.exclude = true
    · rw [parseLoop_cons_ex name rest raw i hex, includedFields_cons_ex name rest hex, ih]
    · rw [Bool.not_eq_true] at hex
      rw [parseLoop_cons_inc name rest raw i hex, includedFields_cons_inc name rest hex]
      rw [show slicesFrom ((name, o) :: includedFields rest) raw i
        = byteRange raw i o.length :: slicesFrom (includedFields rest) raw (i + o.length)
        from rfl]
      rw [show parseWithSlices ((name, o) :: includedFields rest)
          (byteRange raw i o.length :: slicesFrom (includedFields rest) raw (i + o.length))
        = decodeField o (byteRange raw i o.length) >>= fun v =>
            parseWithSlices (includedFields rest)
              (slicesFrom (includedFields rest) raw (i + o.length)) >>= fun vs =>
              .ok ((name, v) :: vs) from rfl]
      rw [ih]
      rfl

/-- C8: on an input buffer strictly shorter than the schema's total required
length, `parse_bytes` performs no explicit length check: it still hands every
included field the slice `raw[offset : offset + length]` — the trailing
field(s) simply receive truncated (possibly empty) slices. -/
theorem short_buffer (schema : Schema) (raw : Bytes)
    (_hshort : raw.length < totalLength schema) :
    parse_values schema raw =
      parseWithSlices (includedFields schema) (slicesFrom (includedFields schema) raw 0) :=
  parseLoop_eq_slices schema raw 0

/-- Witness for C8: the 2-byte buffer `"ab"` against the length-5 schema —
the single field receives the truncated slice and still parses. -/
theorem short_buffer_witness :
    parse_values rtSchema (strBytes "ab") =
      parseWithSlices (includedFields rtSchema)
        (slicesFrom (includedFields rtSchema) (strBytes "ab") 0) ∧
    parse_values rtSchema (strBytes "ab") = .ok [("f", .vstr "ab")] :=
  ⟨short_buffer rtSchema (strBytes "ab") (by decide), rfl⟩

/-- C9: saving options to, or loading options from, a field declaration
whose `json_schema_extra` is not a dict raises a `TypeError`; when it is a
dict, `save_to` followed by `load_from` returns the stored options unchanged
(the 1-byte `fill_byte` hypothesis is pydantic's own construction invariant
on `Options`). -/
theorem options_storage :
    (∀ (o : Options) (fi : FieldInfo), fi.json_schema_extra.isDict = false →
      (∃ msg, o.save_to fi = .error msg) ∧
      (∃ msg, Options.load_from fi = .error msg)) ∧
    (∀ (o : Options) (fi : FieldInfo) (entries : List (String × DVal)),
      fi.json_schema_extra = .jdict entries → o.fill_byte.length = 1 →
      ∃ fi', o.save_to fi = .ok fi' ∧ Options.load_from fi' = .ok o) := by
  constructor
  · intro o fi hnd
    cases hj : fi.json_schema_extra with
    | jnone =>
      exact ⟨⟨_, by rw [Options.save_to, hj]⟩, ⟨_, by rw [Options.load_from, hj]⟩⟩
    | jcallable =>
      exact ⟨⟨_, by rw [Options.save_to, hj]⟩, ⟨_, by rw [Options.load_from, hj]⟩⟩
    | jdict entries =>
      rw [hj] at hnd
      cases hnd
  · intro o fi entries hj hfb
    refine ⟨.mk fi.dflt fi.exclude (.jdict (dictUpdate entries o.model_dump)), ?_, ?_⟩
    · rw [Options.save_to, hj]
    · rw [Options.load_from]
      exact validate_dump o entries hfb

/-- Witness for C9: saving/loading on a `None` storage errors; on a dict
storage, saving the all-defaults options and loading them back round-trips. -/
theorem options_storage_witness :
    (∃ msg, rtOpts.save_to fiNone = .error msg) ∧
    (∃ msg, Options.load_from fiNone = .error msg) ∧
    (∃ fi', rtOpts.save_to fiDict = .ok fi' ∧ Options.load_from fi' = .ok rtOpts) :=
  ⟨(options_storage.1 rtOpts fiNone rfl).1,
   (options_storage.1 rtOpts fiNone rfl).2,
   options_storage.2 rtOpts fiDict [] rfl rfl⟩

/-- C10: a keyword argument whose name is not an `Options` field name is
silently discarded when the field's fixed-width options are built: the built
options' layout (length, order, justify, fill byte, encoding) is the same as
without the argument, with the same error behaviour, and with no `fill_byte`
kwarg the fill byte keeps its default space value 0x20. -/
theorem unknown_kwarg_discarded (kw1 kw2 : List (String × DVal)) (k : String)
    (v : DVal) (c : Nat)
    (hk1 : optionsFieldNames.contains k = false) :
    ((builtOptions (kw1 ++ (k, v) :: kw2) c).map Options.layout =
      (builtOptions (kw1 ++ kw2) c).map Options.layout) ∧
    (∀ o, builtOptions (kw1 ++ (k, v) :: kw2) c = .ok o →
      dictGet "fill_byte" (kw1 ++ kw2) = none → o.fill_byte = [32]) := by
  have hfilter : (kw1 ++ (k, v) :: kw2).filter (fun kv => optionsFieldNames.contains kv.1)
      = (kw1 ++ kw2).filter (fun kv => optionsFieldNames.contains kv.1) := by
    have hk1' : k ∉ optionsFieldNames := by simpa using hk1
    simp [List.filter_append, List.filter_cons, hk1']
  constructor
  · unfold builtOptions orderedFieldConfig
    rw [hfilter]
    exact validate_layout_indep _ (Field (kw1 ++ (k, v) :: kw2)) (Field (kw1 ++ kw2)) c
  · intro o hok hnone
    unfold builtOptions at hok
    obtain ⟨-, hdata⟩ := validate_ok_inv hok
    obtain ⟨-, -, -, hfb⟩ := vData_ok_inv hdata
    obtain ⟨-, hdefault⟩ := vFillByte_ok_inv hfb
    apply hdefault
    unfold orderedFieldConfig
    rw [hfilter]
    rw [dictGet_append_none _ (dictGet_filter_none _ hnone)]
    rfl

/-- Witness for C10: the test suite's misspelt `fill_char=b"0"` on the
`number` field is dropped — the built options match those of the declaration
without it, and the fill byte is the space 0x20. -/
theorem unknown_kwarg_discarded_witness :
    ((builtOptions [("length", .dint 10), ("justify", .dstr "right"),
        ("fill_char", .dbytes [48])] 2).map Options.layout =
      (builtOptions [("length", .dint 10), ("justify", .dstr "right")] 2).map
        Options.layout) ∧
    (∀ o, builtOptions [("length", .dint 10), ("justify", .dstr "right"),
        ("fill_char", .dbytes [48])] 2 = .ok o → o.fill_byte = [32]) := by
  have h := unknown_kwarg_discarded [("length", .dint 10), ("justify", .dstr "right")]
    [] "fill_char" (.dbytes [48]) 2 (by decide)
  exact ⟨h.1, fun o ho => h.2 o ho rfl⟩

/-- C5: for a record class whose declarations leave `order` (and
`field_info`) to the counter, the built schema lists the included fields in
declaration order — the counter assigns strictly increasing `order` values
and the sort is stable — and in any successful `format_bytes` output the
bytes of an earlier-declared included field A precede the bytes of a
later-declared included field B, independent of anything else in memory. -/
theorem order_invariant (decls : FieldDecls) (c0 : Nat) (schema : Schema)
    (get : String → PyVal) (bs : Bytes) (i j : Nat)
    (hno : ∀ d ∈ decls, ∀ kv ∈ d.2, kv.1 ≠ "order" ∧ kv.1 ≠ "field_info")
    (hb : buildClass decls c0 = .ok schema)
    (hf : format_bytes schema get = .ok bs)
    (hi : i < schema.length) (hj : j < schema.length) (hij : i < j) :
    schema.map Prod.fst = (decls.filter fun d => !(Field d.2).exclude).map Prod.fst ∧
    ∃ pre bi mid bj post, bs = pre ++ bi ++ mid ++ bj ++ post ∧
      encodeField (schema.get ⟨i, hi⟩).1 (schema.get ⟨i, hi⟩).2
        (get (schema.get ⟨i, hi⟩).1) = .ok bi ∧
      encodeField (schema.get ⟨j, hj⟩).1 (schema.get ⟨j, hj⟩).2
        (get (schema.get ⟨j, hj⟩).1) = .ok bj := by
  obtain ⟨hnames, hinc⟩ := buildClass_spec hno hb
  exact ⟨hnames, format_pair_decomp schema get bs hinc hf i j hi hj hij⟩

/-- Witness for C5: in the test class, `string` (declared first) and
`number` (declared third) keep that relative position in the schema, and the
`string` bytes precede the `number` bytes in the 54-byte buffer. -/
theorem order_invariant_witness :
    someSchemaVal.map Prod.fst =
      (someRequestDecls.filter fun d => !(Field d.2).exclude).map Prod.fst ∧
    ∃ pre bi mid bj post, testBytes = pre ++ bi ++ mid ++ bj ++ post ∧
      encodeField (someSchemaVal.get ⟨0, by decide⟩).1
        (someSchemaVal.get ⟨0, by decide⟩).2
        (someRequest0.get (someSchemaVal.get ⟨0, by decide⟩).1) = .ok bi ∧
      encodeField (someSchemaVal.get ⟨2, by decide⟩).1
        (someSchemaVal.get ⟨2, by decide⟩).2
        (someRequest0.get (someSchemaVal.get ⟨2, by decide⟩).1) = .ok bj :=
  order_invariant someRequestDecls 0 someSchemaVal someRequest0.get testBytes 0 2
    (by decide) rfl rfl (by decide) (by decide) (by decide)

/-- Witness for C4: value `"X"` in a length-5 field with fill byte `'0'`
encodes to `"0000X"` under `justify=right` and to `"X0000"` under
`justify=left`. -/
theorem padding_exactness_witness :
    encodeField "f" padRightOpts (.vstr "X") = .ok (strBytes "0000X") ∧
    encodeField "g" padLeftOpts (.vstr "X") = .ok (strBytes "X0000") := by
  obtain ⟨bs, h1, _, _, h4⟩ := padding_exactness "f" padRightOpts (.vstr "X") (by decide)
  obtain ⟨bs', h1', _, h3', _⟩ := padding_exactness "g" padLeftOpts (.vstr "X") (by decide)
  constructor
  · rw [h1, h4 rfl]; rfl
  · rw [h1', h3' rfl]; rfl

end PyFW
